import Mathlib

/-!
Verification of the MiniRTS scheduler core: a shallow embedding of the
Future/Promise continuation machinery, the round-robin thread pool
dispatch, the when_all / when_any combinators and the soft-shutdown
worker protocol, with theorems about the scheduling properties the
repository's documentation states.

The embedding follows the two snapshots of the source: the rts variant
(src/async, src/runtime) and the core variant (src/src/async,
src/src/core).  Tasks are type-erased single-shot callables; at the
scheduling level only their identity matters, so they are modelled as
opaque tokens.
-/

namespace MiniRTS

/-- A task token: stands for one type-erased Task handle. -/
abbrev TaskTok := Nat

/-! ## Future::then registration (src/async/Future.h, lines 101-141) -/

/-- Scheduling decision taken by Future::then for the freshly built
continuation task.  The ranInline alternative exists so that "never runs
inline" is expressible; the source's then never produces it. -/
inductive SchedDecision where
  | enqueuedGlobal (c : TaskTok)
  | registered
  | ranInline (c : TaskTok)
deriving DecidableEq

/-- The part of SharedState that Future::then consults under the state
mutex: the ready flag and the ordered continuation list
(src/async/SharedState.h). -/
structure ContState where
  ready : Bool
  continuations : List TaskTok
deriving DecidableEq

/-- Future::then, registration step (src/async/Future.h, lines 132-139):
under the state mutex, an already-ready state sends the continuation
through the global rts::enqueue path as a fresh submission; otherwise the
continuation is appended to the state's continuation list. -/
def thenRegister (s : ContState) (c : TaskTok) : ContState × SchedDecision :=
  if s.ready then (s, SchedDecision.enqueuedGlobal c)
  else ({ s with continuations := s.continuations ++ [c] }, SchedDecision.registered)

/-- Claim C3: for a Future whose SharedState is already ready, then(g)
schedules the built continuation through the global enqueue path as a
fresh submission and never executes it inline on the registering thread;
for a not-yet-ready state the continuation is appended to the state's
continuation list, all decided under the state mutex. -/
theorem then_on_ready_enqueues_globally (s : ContState) (c : TaskTok) :
    (thenRegister s c).2 ≠ SchedDecision.ranInline c ∧
    (s.ready = true →
      thenRegister s c = (s, SchedDecision.enqueuedGlobal c)) ∧
    (s.ready = false →
      thenRegister s c =
        ({ s with continuations := s.continuations ++ [c] },
          SchedDecision.registered)) := by
  cases h : s.ready <;> simp [thenRegister, h]

/-- Concrete instance of the then-registration theorem: a ready state
sends continuation 3 through the global path; a pending state with list
[1] ends with list [1, 3]. -/
theorem then_on_ready_witness :
    (thenRegister ⟨true, []⟩ 3).2 = SchedDecision.enqueuedGlobal 3 ∧
    (thenRegister ⟨false, [1]⟩ 3).1.continuations = [1, 3] := by
  refine ⟨?_, ?_⟩
  · rw [(then_on_ready_enqueues_globally ⟨true, []⟩ 3).2.1 rfl]
  · rw [(then_on_ready_enqueues_globally ⟨false, [1]⟩ 3).2.2 rfl]
    rfl

/-! ## when_all result assembly (src/src/async/when_all.h, lines 67-77) -/

/-- when_all result assembly (src/src/async/when_all.h, line 71): per
slot the code evaluates opts ? std::move(*opts) : Ts{}, i.e. an unset
optional slot is replaced by a default-constructed value of its type. -/
def fulfillAssemble (dflt : α) (slots : List (Option α)) : List α :=
  slots.map fun o => o.getD dflt

/-- One call of when_all's fulfill lambda (src/src/async/when_all.h,
lines 67-77): remaining.fetch_sub(1) returns the previous counter value;
only when that previous value is 1 is the result tuple assembled and
set_value called on the composite promise. -/
def fulfillStep (dflt : α) (remaining : Nat) (slots : List (Option α)) :
    Nat × Option (List α) :=
  if remaining = 1 then (0, some (fulfillAssemble dflt slots))
  else (remaining - 1, none)

/-- Claim C10: in when_all's mixed/non-void path, when the last input
completes (the remaining counter is at 1) the result tuple is assembled
slot by slot as opts ? std::move(*opts) : Ts{} — every slot still unset
at that moment is silently replaced by a default-constructed value in
the result, rather than being reported as an error. -/
theorem when_all_unset_slots_default (dflt : α) (slots : List (Option α))
    (i : Nat) (hi : slots[i]? = some none) :
    fulfillStep dflt 1 slots = (0, some (fulfillAssemble dflt slots)) ∧
    (fulfillAssemble dflt slots)[i]? = some dflt ∧
    (fulfillAssemble dflt slots).length = slots.length := by
  refine ⟨rfl, ?_, by simp [fulfillAssemble]⟩
  simp [fulfillAssemble, hi]

/-- Concrete instance of the slot-default theorem: assembling
[none, some 5] with default 0 yields 0 in slot 0. -/
theorem when_all_unset_slots_witness :
    (fulfillAssemble (0 : Nat) [none, some 5])[0]? = some 0 :=
  (when_all_unset_slots_default 0 [none, some 5] 0 (by decide)).2.1

/-! ## when_any single fulfillment (src/src/async/when_any.h, lines 54-88) -/

/-- A resolution event of one input future: input i resolves with a
value, or with an exception (exceptions carried as ids).  Events are
listed in the order the inputs resolve. -/
inductive Resolution (α : Type) where
  | val (i : Nat) (v : α)
  | exc (i : Nat) (e : Nat)
deriving DecidableEq

/-- State shared by the when_any continuations (src/src/async/when_any.h,
lines 54-88): the atomic won flag, the composite promise content (the
variant alternative index and value passed to set_value) and how often
set_value has been called on the composite promise. -/
structure AnyState (α : Type) where
  won : Bool
  composite : Option (Nat × α)
  setCalls : Nat
deriving DecidableEq

def anyInit : AnyState α := ⟨false, none, 0⟩

/-- Effect of one input's resolution on the when_any state.  A value
resolution runs the attached lambda: it re-checks won, and fulfill
performs the compare-and-swap, so only the first value resolver calls
set_value, wrapping its value in the variant alternative of its index.
An exceptional resolution never invokes the attached lambda: the
continuation built in Future::then forwards the exception to the promise
of the future that when_any discarded. -/
def anyStep (s : AnyState α) : Resolution α → AnyState α
  | Resolution.exc _ _ => s
  | Resolution.val i v =>
    if s.won then s
    else { won := true, composite := some (i, v), setCalls := s.setCalls + 1 }

def anyRun (evs : List (Resolution α)) : AnyState α := evs.foldl anyStep anyInit

/-- The first value resolution in the event list, with its input index. -/
def firstVal : List (Resolution α) → Option (Nat × α)
  | [] => none
  | Resolution.val i v :: _ => some (i, v)
  | Resolution.exc _ _ :: rest => firstVal rest

theorem anyFold_of_won (evs : List (Resolution α)) (s : AnyState α)
    (h : s.won = true) : evs.foldl anyStep s = s := by
  induction evs with
  | nil => rfl
  | cons e rest ih =>
    cases e <;> simp [anyStep, h] <;> exact ih

theorem anyFold_of_notWon (evs : List (Resolution α)) (s : AnyState α)
    (h : s.won = false) :
    evs.foldl anyStep s =
      match firstVal evs with
      | none => s
      | some (i, v) =>
          { won := true, composite := some (i, v), setCalls := s.setCalls + 1 } := by
  induction evs generalizing s with
  | nil => rfl
  | cons e rest ih =>
    cases e with
    | exc i e => simpa [anyStep, firstVal] using ih s h
    | val i v =>
      simp [anyStep, h, firstVal]
      exact anyFold_of_won rest _ rfl

/-- Claim C6: across any sequence of input resolutions, set_value is
called at most once on the when_any composite promise (single
fulfillment guarded by the compare-and-swap on the shared atomic won);
the composite is fulfilled with exactly the variant alternative
(index, value) of the first input to resolve with a value — so an input
resolving with an exception never fulfills the composite. -/
theorem when_any_single_fulfillment (evs : List (Resolution α)) :
    (anyRun evs).setCalls ≤ 1 ∧ (anyRun evs).composite = firstVal evs := by
  have h := anyFold_of_notWon evs (anyInit (α := α)) rfl
  unfold anyRun
  rcases hf : firstVal evs with _ | ⟨i, v⟩ <;> rw [hf] at h <;>
    simp [anyInit] at h <;> simp [h, anyInit]

/-! ## Promise::set_value continuation scheduling
(src/src/async/promise.h, lines 82-104; src/runtime/Worker.h, lines 146-149) -/

/-- A worker's local work-stealing deque as seen by enqueue_local: a task
list bounded by the queue capacity. -/
structure WorkerDeque where
  tasks : List TaskTok
  capacity : Nat
deriving DecidableEq

/-- Worker::enqueue_local (src/runtime/Worker.h, lines 146-149):
wsq_->try_emplace — returns the updated deque, or none (the false
return) when the deque is full. -/
def enqueueLocal (w : WorkerDeque) (t : TaskTok) : Option WorkerDeque :=
  if w.tasks.length < w.capacity then some { w with tasks := t :: w.tasks } else none

/-- What became of one registered continuation during set_value. -/
inductive ContFate where
  | pushedLocal (c : TaskTok)
  | ranInline (c : TaskTok)
  | enqueuedGlobal (c : TaskTok)
deriving DecidableEq

def ContFate.tok : ContFate → TaskTok
  | ContFate.pushedLocal c => c
  | ContFate.ranInline c => c
  | ContFate.enqueuedGlobal c => c

/-- The continuation loop of Promise::set_value (src/src/async/promise.h,
lines 94-103), run after the state mutex is released: for each
registered continuation, in registration order, assert(tls_worker) —
with no current worker the loop dies on that assertion (a null
dereference once assertions are disabled); there is no fallback — then
try tls_worker->enqueue_local, and run the continuation inline
(invoke then destroy) when the local deque is full.  Returns the final
deque and the fate of every continuation, or none when the tls_worker
assertion fails. -/
def scheduleConts :
    Option WorkerDeque → List TaskTok → Option (Option WorkerDeque × List ContFate)
  | tls, [] => some (tls, [])
  | none, _ :: _ => none
  | some w, c :: rest =>
    match enqueueLocal w c with
    | some w2 =>
      (scheduleConts (some w2) rest).map fun r => (r.1, ContFate.pushedLocal c :: r.2)
    | none =>
      (scheduleConts (some w) rest).map fun r => (r.1, ContFate.ranInline c :: r.2)

/-- The shared-state fields Promise::set_value manipulates. -/
structure PromiseState (α : Type) where
  ready : Bool
  value : Option α
  continuations : List TaskTok
deriving DecidableEq

/-- Promise<T>::set_value (src/src/async/promise.h, lines 82-104): under
the mutex assert(!ready) — double fulfillment dies on the assertion —
then store the value and release-store ready = true; after unlocking,
schedule the registered continuations with scheduleConts.  tls is the
calling thread's tls_worker. -/
def setValue (tls : Option WorkerDeque) (s : PromiseState α) (v : α) :
    Option (PromiseState α × Option WorkerDeque × List ContFate) :=
  if s.ready then none
  else
    match scheduleConts tls s.continuations with
    | none => none
    | some (tw, fates) => some ({ s with ready := true, value := some v }, tw, fates)

/-- Claim C2 counterexample: a setter thread with no current worker
(tls_worker null, e.g. the submitter thread) does not fall back to the
global enqueue path or to inline execution: set_value dies on
assert(tls_worker) with the registered continuation neither executed nor
enqueued, so that continuation is lost.  Here: one registered
continuation (token 0), value 42, no tls worker. -/
theorem setValue_no_tls_worker_asserts :
    setValue (α := Nat) none ⟨false, none, [0]⟩ 42 = none := rfl

theorem scheduleConts_some (w : WorkerDeque) (cs : List TaskTok) :
    ∃ tw fates, scheduleConts (some w) cs = some (some tw, fates) ∧
      fates.map ContFate.tok = cs ∧
      ∀ f ∈ fates, (∃ c, f = ContFate.pushedLocal c) ∨ (∃ c, f = ContFate.ranInline c) := by
  induction cs generalizing w with
  | nil => exact ⟨w, [], rfl, rfl, by simp⟩
  | cons c rest ih =>
    cases h : enqueueLocal w c with
    | some w2 =>
      obtain ⟨tw, fates, heq, hmap, hall⟩ := ih w2
      refine ⟨tw, ContFate.pushedLocal c :: fates, ?_, ?_, ?_⟩
      · simp [scheduleConts, h, heq]
      · simp [ContFate.tok, hmap]
      · intro f hf
        rcases List.mem_cons.mp hf with hf1 | hf2
        · exact Or.inl ⟨c, hf1⟩
        · exact hall f hf2
    | none =>
      obtain ⟨tw, fates, heq, hmap, hall⟩ := ih w
      refine ⟨tw, ContFate.ranInline c :: fates, ?_, ?_, ?_⟩
      · simp [scheduleConts, h, heq]
      · simp [ContFate.tok, hmap]
      · intro f hf
        rcases List.mem_cons.mp hf with hf1 | hf2
        · exact Or.inr ⟨c, hf1⟩
        · exact hall f hf2

/-- Claim C2 (amended): Promise<T>::set_value, after releasing the state
mutex with ready set and the value stored, processes every registered
continuation in FIFO registration order — each is pushed to the current
worker's local deque via enqueue_local, and when that push fails (deque
full) the continuation is run inline on the setter's thread — provided
the setter has a current worker (tls_worker non-null); then no
continuation is lost and none goes through the global path.  For a
setter with no tls_worker the code asserts instead of falling back (see
the counterexample). -/
theorem setValue_schedules_all_continuations_fifo
    (w : WorkerDeque) (s : PromiseState α) (v : α) (h : s.ready = false) :
    ∃ tw fates,
      setValue (some w) s v =
        some ({ s with ready := true, value := some v }, some tw, fates) ∧
      fates.map ContFate.tok = s.continuations ∧
      ∀ f ∈ fates, (∃ c, f = ContFate.pushedLocal c) ∨ (∃ c, f = ContFate.ranInline c) := by
  obtain ⟨tw, fates, heq, hmap, hall⟩ := scheduleConts_some w s.continuations
  exact ⟨tw, fates, by simp [setValue, h, heq], hmap, hall⟩

/-- Concrete instance of the set_value scheduling theorem: a worker with
an empty deque of capacity 1 and two registered continuations [5, 6]:
both are consumed in order (5 is pushed locally, 6 runs inline). -/
theorem setValue_schedules_witness :
    (⟨false, none, [5, 6]⟩ : PromiseState Nat).ready = false ∧
    ∃ tw fates,
      setValue (some ⟨[], 1⟩) (⟨false, none, [5, 6]⟩ : PromiseState Nat) 9 =
        some ({ ready := true, value := some 9, continuations := [5, 6] }, some tw, fates) ∧
      fates.map ContFate.tok = [5, 6] ∧
      ∀ f ∈ fates, (∃ c, f = ContFate.pushedLocal c) ∨ (∃ c, f = ContFate.ranInline c) :=
  ⟨rfl, setValue_schedules_all_continuations_fifo ⟨[], 1⟩ ⟨false, none, [5, 6]⟩ 9 rfl⟩

/-! ## Promise double fulfillment (src/src/async/promise.h, lines 62-63 and 82-104) -/

/-- Promise<T>::set_value double-fulfillment behavior
(src/src/async/promise.h, lines 86-92).  debugAsserts true models a
build with assert active: a second call dies on assert(!state_->ready).
With assertions compiled out that guard disappears and the code
overwrites state_->value and re-stores ready.  (Promise itself is
copyable: its copy constructor and copy assignment are defaulted at
src/src/async/promise.h lines 62-63, so several producer handles may
share one state.) -/
def setValueChecked (debugAsserts : Bool) (s : PromiseState α) (v : α) :
    Option (PromiseState α) :=
  if s.ready then
    if debugAsserts then none
    else some { s with ready := true, value := some v }
  else some { s with ready := true, value := some v }

/-- Claim C8 counterexample: with assertions disabled (the only guard the
code has is the debug assert) a second set_value call on an
already-fulfilled state succeeds and silently replaces the stored value
1 with 2 — contradicting "never a silent overwrite of the already-set
value".  The move-only part of the claim also fails in source: the copy
constructor and copy assignment of Promise are defaulted
(src/src/async/promise.h, lines 62-63). -/
theorem set_value_release_overwrites :
    setValueChecked false (⟨true, some 1, []⟩ : PromiseState Nat) 2 =
      some ⟨true, some 2, []⟩ := rfl

/-- Claim C8 (amended): set_value and set_exception together must be
called at most once per shared state: a first call on an unfulfilled
state succeeds; a second call is a programming error that the code
enforces only through a debug assertion — it dies on
assert(!state_->ready) in a debug build, while with assertions disabled
it silently overwrites the stored value.  Promise is copyable (defaulted
copy operations), not move-only, so a state can have several producer
handles; the at-most-once rule is a caller contract per shared state,
not a consequence of handle uniqueness. -/
theorem promise_double_set_contract (s : PromiseState α) (v w : α)
    (h : s.ready = false) :
    setValueChecked true s v = some { s with ready := true, value := some v } ∧
    setValueChecked false s v = some { s with ready := true, value := some v } ∧
    setValueChecked true { s with ready := true, value := some v } w = none ∧
    setValueChecked false { s with ready := true, value := some v } w =
      some { s with ready := true, value := some w } := by
  simp [setValueChecked, h]

/-- Concrete instance of the double-set theorem at value 1 then 2. -/
theorem promise_double_set_witness :
    (⟨false, none, []⟩ : PromiseState Nat).ready = false ∧
    (setValueChecked true (⟨false, none, []⟩ : PromiseState Nat) 1 = some ⟨true, some 1, []⟩ ∧
     setValueChecked false (⟨false, none, []⟩ : PromiseState Nat) 1 = some ⟨true, some 1, []⟩ ∧
     setValueChecked true (⟨true, some 1, []⟩ : PromiseState Nat) 2 = none ∧
     setValueChecked false (⟨true, some 1, []⟩ : PromiseState Nat) 2 = some ⟨true, some 2, []⟩) :=
  ⟨rfl, promise_double_set_contract ⟨false, none, []⟩ 1 2 rfl⟩

/-! ## Future::get moves the value out (src/async/Future.h, lines 72-84) -/

/-- Move semantics of the stored value type: residue v is what the slot
holds after std::move(v) has been consumed by a move constructor.  For
C++ scalar types a move is a copy (residue v = v); for a type like
std::string the typical residue is the empty value. -/
structure MoveSem (α : Type) where
  residue : α → α

/-- Scalar value types (int and friends): moving copies, the source is
unchanged. -/
def scalarMove : MoveSem Nat := ⟨fun v => v⟩

/-- A destructively movable buffer type in the style of std::string:
moving leaves the source empty. -/
def bufferMove : MoveSem (List Nat) := ⟨fun _ => []⟩

/-- The shared state as read by Future::get. -/
structure GetState (α : Type) where
  ready : Bool
  value : Option α
  exc : Option Nat
deriving DecidableEq

inductive GetOutcome (α : Type) where
  | value (v : α)
  | thrown (e : Nat)
  | spins
  | assertNoValue
deriving DecidableEq

/-- Future<T>::get for non-void T (src/async/Future.h, lines 72-84):
wait() busy-spins on ready (spins forever when never set), a stored
exception is rethrown, otherwise the call returns
std::move(*state_->value): the value is moved out of the slot, whose
optional stays engaged and now holds the move residue. -/
def futureGet (m : MoveSem α) (s : GetState α) : GetOutcome α × GetState α :=
  if s.ready = false then (GetOutcome.spins, s)
  else
    match s.exc with
    | some e => (GetOutcome.thrown e, s)
    | none =>
      match s.value with
      | some v => (GetOutcome.value v, { s with value := some (m.residue v) })
      | none => (GetOutcome.assertNoValue, s)

/-- Claim C9 counterexample: for a trivially copyable value type (a C++
scalar: moving is copying) a second get() through a handle sharing the
state returns exactly the originally set value — here 7 — so "a second
get() ... does not return the originally set v" fails for such T, even
though get does execute std::move on the slot. -/
theorem get_second_returns_original_for_scalar :
    (futureGet scalarMove ⟨true, some 7, none⟩).1 = GetOutcome.value 7 ∧
    (futureGet scalarMove (futureGet scalarMove ⟨true, some 7, none⟩).2).1 =
      GetOutcome.value 7 := by decide

/-- Claim C9 (amended): Future<T>::get for non-void T is not read-only on
the shared state: it returns std::move(*value), leaving the slot's
optional engaged with the move residue, so the slot afterwards holds a
moved-from object; a second get() returns that residue — for a
destructively movable type (residue v ≠ v) the original value is gone,
while for a trivially copyable type the residue equals the original and
a second get() still returns it. -/
theorem get_moves_value_out (m : MoveSem α) (s : GetState α) (v : α)
    (hr : s.ready = true) (he : s.exc = none) (hv : s.value = some v) :
    futureGet m s = (GetOutcome.value v, { s with value := some (m.residue v) }) ∧
    (futureGet m { s with value := some (m.residue v) }).1 =
      GetOutcome.value (m.residue v) := by
  simp [futureGet, hr, he, hv]

/-- Concrete instance of the get-moves theorem on a destructively movable
value: after get returns [1, 2] the slot holds [] and a second get
returns [], not the original [1, 2]. -/
theorem get_moves_value_witness :
    futureGet bufferMove ⟨true, some [1, 2], none⟩ =
      (GetOutcome.value [1, 2], ⟨true, some [], none⟩) ∧
    (futureGet bufferMove (⟨true, some [], none⟩ : GetState (List Nat))).1 =
      GetOutcome.value [] ∧
    ([] : List Nat) ≠ [1, 2] :=
  ⟨(get_moves_value_out bufferMove ⟨true, some [1, 2], none⟩ [1, 2] rfl rfl rfl).1,
   (get_moves_value_out bufferMove ⟨true, some [1, 2], none⟩ [1, 2] rfl rfl rfl).2,
   by decide⟩

/-! ## ThreadPool::enqueue round-robin (src/runtime/DefaultThreadPool.h,
lines 54-67; src/src/core/default_thread_pool.h, lines 158-169) -/

/-- An SPSC ring as the dispatcher sees it: current buffer and capacity. -/
structure Spsc where
  buffer : List TaskTok
  capacity : Nat
deriving DecidableEq

def Spsc.isFull (q : Spsc) : Bool := decide (q.capacity ≤ q.buffer.length)

/-- rigtorp::SPSCQueue::try_emplace as used by Worker::try_enqueue: fails
(none) when the ring is full, otherwise appends at the producer end. -/
def Spsc.tryEmplace (q : Spsc) (t : TaskTok) : Option Spsc :=
  if q.isFull then none else some { q with buffer := q.buffer ++ [t] }

/-- The retry loop of the rts DefaultThreadPool::enqueue
(src/runtime/DefaultThreadPool.h, lines 54-67): try worker[r] with
try_enqueue; on failure advance r (wrapping) and retry; after a
successful push advance r once more.  The loop reaches every worker
within ws.length probes, so that is the fuel; fuel exhaustion (none)
models the code busy-spinning while every ring stays full. -/
def rtsEnqueueGo (t : TaskTok) : Nat → List Spsc → Nat → Option (List Spsc × Nat)
  | 0, _, _ => none
  | fuel + 1, ws, r =>
    match ws[r]? with
    | none => none
    | some q =>
      match q.tryEmplace t with
      | some q2 => some (ws.set r q2, (r + 1) % ws.length)
      | none => rtsEnqueueGo t fuel ws ((r + 1) % ws.length)

def rtsEnqueue (ws : List Spsc) (r : Nat) (t : TaskTok) : Option (List Spsc × Nat) :=
  rtsEnqueueGo t ws.length ws r

inductive CoreEnqueueResult where
  | pushed (ws : List Spsc) (cursor : Nat)
  | blockedFull (worker : Nat)
  | badIndex
deriving DecidableEq

/-- The core DefaultThreadPool::enqueue
(src/src/core/default_thread_pool.h, lines 158-169): it calls
workers_[round_robin_].enqueue(...) — an unconditional spscq_->emplace —
and only afterwards advances the cursor.  rigtorp's emplace busy-waits
for the consumer when the ring is full, so at a full ring the call
stalls on that very worker without advancing the cursor or probing
another worker: blockedFull r. -/
def coreEnqueue (ws : List Spsc) (r : Nat) (t : TaskTok) : CoreEnqueueResult :=
  match ws[r]? with
  | none => CoreEnqueueResult.badIndex
  | some q =>
    if q.isFull then CoreEnqueueResult.blockedFull r
    else CoreEnqueueResult.pushed
      (ws.set r { q with buffer := q.buffer ++ [t] }) ((r + 1) % ws.length)

/-- Claim C4 counterexample: the core snapshot's ThreadPool::enqueue does
not advance the cursor and retry when the ring at the cursor is full.
With worker 0 full (capacity 1 holding task 9) and worker 1 empty,
pushing task 7 at cursor 0 stalls on worker 0's full ring instead of
placing the task with worker 1. -/
theorem core_enqueue_full_queue_blocks :
    coreEnqueue [⟨[9], 1⟩, ⟨[], 1⟩] 0 7 = CoreEnqueueResult.blockedFull 0 := by decide

theorem rtsEnqueueGo_succeeds (t : TaskTok) (ws : List Spsc) :
    ∀ fuel r, r < ws.length →
      (∃ k, k < fuel ∧ ∃ qk, ws[(r + k) % ws.length]? = some qk ∧ qk.isFull = false) →
      ∃ i q, i < ws.length ∧ ws[i]? = some q ∧ q.isFull = false ∧
        rtsEnqueueGo t fuel ws r =
          some (ws.set i { q with buffer := q.buffer ++ [t] }, (i + 1) % ws.length) := by
  intro fuel
  induction fuel with
  | zero =>
    intro r _ h
    obtain ⟨k, hk, -⟩ := h
    omega
  | succ fuel ih =>
    intro r hr h
    obtain ⟨k, hk, qk, hqk, hkfull⟩ := h
    have hlen : 0 < ws.length := Nat.lt_of_le_of_lt (Nat.zero_le r) hr
    obtain ⟨q, hq⟩ : ∃ q, ws[r]? = some q := ⟨ws[r], List.getElem?_eq_getElem hr⟩
    by_cases hf : q.isFull = true
    · have hk0 : k ≠ 0 := by
        intro h0
        subst h0
        rw [Nat.add_zero, Nat.mod_eq_of_lt hr, hq] at hqk
        cases hqk
        rw [hkfull] at hf
        cases hf
      have hrec : rtsEnqueueGo t (fuel + 1) ws r =
          rtsEnqueueGo t fuel ws ((r + 1) % ws.length) := by
        simp [rtsEnqueueGo, hq, Spsc.tryEmplace, hf]
      rw [hrec]
      apply ih ((r + 1) % ws.length) (Nat.mod_lt _ hlen)
      refine ⟨k - 1, by omega, qk, ?_, hkfull⟩
      have harith : ((r + 1) % ws.length + (k - 1)) % ws.length =
          (r + k) % ws.length := by
        rw [Nat.mod_add_mod]
        congr 1
        omega
      rw [harith]
      exact hqk
    · refine ⟨r, q, hr, hq, by simpa using hf, ?_⟩
      simp [rtsEnqueueGo, hq, Spsc.tryEmplace, hf]

/-- Claim C4 (amended): the rts snapshot's DefaultThreadPool::enqueue
implements the claimed policy: the task goes to the worker at the
round-robin cursor only if its SPSC accepts it; on a full ring the
cursor advances (wrapping) and the push is retried until some worker
accepts, so the task is never pushed into a full ring, ends up with
exactly one worker, and the cursor then stands exactly one past the
accepting worker.  The core snapshot's enqueue instead pushes
unconditionally at the cursor and blocks on a full ring without
advancing (see the counterexample). -/
theorem rts_enqueue_round_robin_places_once (ws : List Spsc) (r t : Nat)
    (hr : r < ws.length)
    (hfree : ∃ i q, i < ws.length ∧ ws[i]? = some q ∧ q.isFull = false) :
    ∃ i q, i < ws.length ∧ ws[i]? = some q ∧ q.isFull = false ∧
      rtsEnqueue ws r t =
        some (ws.set i { q with buffer := q.buffer ++ [t] }, (i + 1) % ws.length) := by
  obtain ⟨i, q, hi, hq, hfull⟩ := hfree
  have hlen : 0 < ws.length := Nat.lt_of_le_of_lt (Nat.zero_le i) hi
  apply rtsEnqueueGo_succeeds t ws ws.length r hr
  refine ⟨(i + ws.length - r) % ws.length, Nat.mod_lt _ hlen, q, ?_, hfull⟩
  have harith : (r + (i + ws.length - r) % ws.length) % ws.length = i := by
    rw [Nat.add_mod_mod]
    have h2 : r + (i + ws.length - r) = i + ws.length := by omega
    rw [h2, Nat.add_mod_right, Nat.mod_eq_of_lt hi]
  rw [harith]
  exact hq

/-- Concrete instance of the rts enqueue theorem: worker 0 full, worker 1
empty, cursor 0: the push lands with exactly one accepting worker. -/
theorem rts_enqueue_witness :
    ∃ i q, i < ([⟨[9], 1⟩, ⟨[], 1⟩] : List Spsc).length ∧
      ([⟨[9], 1⟩, ⟨[], 1⟩] : List Spsc)[i]? = some q ∧ q.isFull = false ∧
      rtsEnqueue [⟨[9], 1⟩, ⟨[], 1⟩] 0 7 =
        some (([⟨[9], 1⟩, ⟨[], 1⟩] : List Spsc).set i { q with buffer := q.buffer ++ [7] },
          (i + 1) % ([⟨[9], 1⟩, ⟨[], 1⟩] : List Spsc).length) :=
  rts_enqueue_round_robin_places_once [⟨[9], 1⟩, ⟨[], 1⟩] 0 7 (by decide)
    ⟨1, ⟨[], 1⟩, by decide, by decide, by decide⟩

/-! ## when_all exception path (src/src/async/when_all.h, lines 79-96;
src/async/Future.h, lines 110-130) -/

/-- What the when_all composite promise can be fulfilled with. -/
inductive AllOutcome (α : Type) where
  | tuple (vs : List α)
  | excSet (e : Nat)
deriving DecidableEq

/-- The shared state of one when_all combination: the optional slots, the
atomic remaining counter, and the composite promise content (none while
unfulfilled). -/
structure AllState (α : Type) where
  slots : List (Option α)
  remaining : Nat
  composite : Option (AllOutcome α)
deriving DecidableEq

/-- Effect of one input's resolution on the when_all state
(src/src/async/when_all.h, lines 79-96).  A value resolution at index i
runs the attached lambda: it stores the value into slot i and calls
fulfill, whose remaining.fetch_sub fires the tuple assembly exactly when
the previous counter value was 1.  An exceptional resolution never runs
the attached lambda: the continuation Future::then builds
(src/async/Future.h, lines 110-130) forwards the exception to its own
downstream promise — the future when_all discards — so neither the
slots, nor the counter, nor the composite promise change. -/
def allStep (dflt : α) (s : AllState α) : Resolution α → AllState α
  | Resolution.exc _ _ => s
  | Resolution.val i v =>
    let slots2 := s.slots.set i (some v)
    if s.remaining = 1 then
      { slots := slots2, remaining := 0,
        composite := some (AllOutcome.tuple (fulfillAssemble dflt slots2)) }
    else
      { slots := slots2, remaining := s.remaining - 1, composite := s.composite }

def allInit (n : Nat) : AllState α := ⟨List.replicate n none, n, none⟩

def allRun (dflt : α) (n : Nat) (evs : List (Resolution α)) : AllState α :=
  evs.foldl (allStep dflt) (allInit n)

/-- Number of value resolutions in an event list. -/
def countVals : List (Resolution α) → Nat
  | [] => 0
  | Resolution.val _ _ :: rest => countVals rest + 1
  | Resolution.exc _ _ :: rest => countVals rest

/-- Claim C5 counterexample: when_all over two inputs where input 0
resolves with an exception (id 7) and input 1 with value 5: all inputs
have resolved, yet the composite promise was never set — neither to the
exception nor to a value — and the when_all future is not ready: the
exceptional input's continuation forwarded the exception to the
discarded then-future and never decremented the remaining counter. -/
theorem when_all_exception_never_fulfills :
    (allRun (0 : Nat) 2 [Resolution.exc 0 7, Resolution.val 1 5]).composite = none ∧
    (allRun (0 : Nat) 2 [Resolution.exc 0 7, Resolution.val 1 5]).remaining = 1 := by
  decide

theorem allFold_composite_none (dflt : α) (evs : List (Resolution α)) :
    ∀ s : AllState α, s.composite = none → countVals evs < s.remaining →
      (evs.foldl (allStep dflt) s).composite = none ∧
      (evs.foldl (allStep dflt) s).remaining = s.remaining - countVals evs := by
  induction evs with
  | nil =>
    intro s h1 _
    exact ⟨h1, by simp [countVals]⟩
  | cons e rest ih =>
    intro s h1 h2
    cases e with
    | exc i e =>
      simpa [countVals] using ih s h1 (by simpa [countVals] using h2)
    | val i v =>
      have h2n : countVals rest + 1 < s.remaining := by simpa [countVals] using h2
      have hrem : ¬ s.remaining = 1 := by omega
      rw [List.foldl_cons]
      have hstep : allStep dflt s (Resolution.val i v) =
          { slots := s.slots.set i (some v), remaining := s.remaining - 1,
            composite := s.composite } := by
        simp [allStep, hrem]
      rw [hstep]
      obtain ⟨hc, hrr⟩ := ih ⟨s.slots.set i (some v), s.remaining - 1, s.composite⟩
        (by simpa using h1) (by simp; omega)
      refine ⟨hc, ?_⟩
      rw [hrr]
      simp [countVals]
      omega

theorem allFold_no_vals (dflt : α) (evs : List (Resolution α)) :
    ∀ s : AllState α, countVals evs = 0 → evs.foldl (allStep dflt) s = s := by
  induction evs with
  | nil => intro s _; rfl
  | cons e rest ih =>
    intro s h
    cases e with
    | exc i e => exact ih s (by simpa [countVals] using h)
    | val i v => simp [countVals] at h

theorem allFold_completes (dflt : α) (evs : List (Resolution α)) :
    ∀ s : AllState α, countVals evs = s.remaining → 0 < s.remaining →
      ∃ vs, (evs.foldl (allStep dflt) s).composite = some (AllOutcome.tuple vs) := by
  induction evs with
  | nil =>
    intro s h1 h2
    rw [countVals] at h1
    omega
  | cons e rest ih =>
    intro s h1 h2
    cases e with
    | exc i e => exact ih s (by simpa [countVals] using h1) h2
    | val i v =>
      by_cases hrem : s.remaining = 1
      · have hrest : countVals rest = 0 := by
          rw [countVals] at h1
          omega
        rw [List.foldl_cons]
        have hstep : allStep dflt s (Resolution.val i v) =
            { slots := s.slots.set i (some v), remaining := 0,
              composite := some (AllOutcome.tuple
                (fulfillAssemble dflt (s.slots.set i (some v)))) } := by
          simp [allStep, hrem]
        rw [hstep, allFold_no_vals dflt rest _ hrest]
        exact ⟨_, rfl⟩
      · have h1n : countVals rest + 1 = s.remaining := by simpa [countVals] using h1
        rw [List.foldl_cons]
        have hstep : allStep dflt s (Resolution.val i v) =
            { slots := s.slots.set i (some v), remaining := s.remaining - 1,
              composite := s.composite } := by
          simp [allStep, hrem]
        rw [hstep]
        exact ih _ (by simp; omega) (by simp; omega)

/-- Claim C5 (amended): an input of when_all that resolves with an
exception never reaches the composite promise: the exception lands in
the discarded future returned by then, and the attached lambda (slot
store and counter decrement) never runs.  Hence whenever fewer value
resolutions than inputs have occurred — in particular when any input
resolved exceptionally — the composite promise is unset (neither the
exception nor a value) and the when_all future is not ready; the
composite is fulfilled, with an assembled tuple, exactly when all n
inputs have resolved with values. -/
theorem when_all_missing_value_never_ready (dflt : α) (n : Nat)
    (evs : List (Resolution α)) :
    (countVals evs < n →
      (allRun dflt n evs).composite = none ∧
      (allRun dflt n evs).remaining = n - countVals evs) ∧
    (countVals evs = n → 0 < n →
      ∃ vs, (allRun dflt n evs).composite = some (AllOutcome.tuple vs)) := by
  constructor
  · intro h
    exact allFold_composite_none dflt evs (allInit n) rfl (by simpa [allInit] using h)
  · intro h hn
    exact allFold_completes dflt evs (allInit n) (by simpa [allInit] using h)
      (by simpa [allInit] using hn)

/-- Concrete instances of the when_all theorem: with an exceptional input
the composite of two inputs stays unset; with two value inputs it is
fulfilled with a tuple. -/
theorem when_all_missing_value_witness :
    ((allRun (0 : Nat) 2 [Resolution.exc 0 7, Resolution.val 1 5]).composite = none ∧
      (allRun (0 : Nat) 2 [Resolution.exc 0 7, Resolution.val 1 5]).remaining =
        2 - countVals [Resolution.exc 0 7, Resolution.val 1 5]) ∧
    ∃ vs, (allRun (0 : Nat) 2 [Resolution.val 0 3, Resolution.val 1 4]).composite =
      some (AllOutcome.tuple vs) :=
  ⟨(when_all_missing_value_never_ready 0 2 [Resolution.exc 0 7, Resolution.val 1 5]).1
      (by decide),
   (when_all_missing_value_never_ready 0 2 [Resolution.val 0 3, Resolution.val 1 4]).2
      (by decide) (by decide)⟩

/-! ## Round-trip laws: spawn / then / get
(src/src/async/spawn.h, lines 38-69; src/async/Future.h, lines 101-141;
src/src/async/promise.h, lines 82-104)

A mini model of an initialized single-worker runtime
(initialize_runtime(1, cap)), enough to execute the data flow of
spawn, then and get. -/

/-- One future's shared state in the mini runtime: the ready flag, the
value slot, and the registered continuations, each a pair of the
downstream state id and the continuation function. -/
structure MiniFut (α : Type) where
  ready : Bool
  value : Option α
  conts : List (Nat × (α → α))

/-- A pending task of the single-worker runtime: either the body built by
spawn (computes v and fulfills state sid), or a then-continuation (reads
state up, applies f, fulfills state dn). -/
inductive MiniTask (α : Type) where
  | body (sid : Nat) (v : α)
  | cont (up dn : Nat) (f : α → α)

/-- The runtime as seen by one submitter and one worker: the shared
states and the worker's pending tasks in the order the worker will pop
them (head first).  Global enqueue (pool round robin over the one
worker) appends at the tail like the SPSC ring; enqueue_local pushes at
the head like the LIFO side of the work-stealing deque. -/
structure MiniRt (α : Type) where
  states : List (MiniFut α)
  queue : List (MiniTask α)

/-- Promise::set_value on the worker thread (src/src/async/promise.h,
lines 82-104): mark the state ready with the value, then push every
registered continuation onto the worker's own deque via enqueue_local —
pushes land LIFO, so the last registered continuation is popped first. -/
def rtSetValue (rt : MiniRt α) (sid : Nat) (v : α) : MiniRt α :=
  match rt.states[sid]? with
  | none => rt
  | some st =>
    { states := rt.states.set sid { st with ready := true, value := some v },
      queue := (st.conts.map fun c => MiniTask.cont sid c.1 c.2).reverse ++ rt.queue }

/-- Running one task on the worker: a spawn body fulfills its promise
with its value (src/src/async/spawn.h, lines 51-65); a then-continuation
reads the upstream value and fulfills the downstream promise with f of
it (src/async/Future.h, lines 110-130). -/
def execTask (rt : MiniRt α) : MiniTask α → MiniRt α
  | MiniTask.body sid v => rtSetValue rt sid v
  | MiniTask.cont up dn f =>
    match rt.states[up]? with
    | none => rt
    | some ust =>
      match ust.value with
      | some uv => rtSetValue rt dn (f uv)
      | none => rt

/-- The worker run loop: pop and run tasks, fuel-bounded. -/
def runSteps : Nat → MiniRt α → MiniRt α
  | 0, rt => rt
  | n + 1, rt =>
    match rt.queue with
    | [] => rt
    | t :: rest => runSteps n (execTask { rt with queue := rest } t)

/-- rts::async::spawn (src/src/async/spawn.h, lines 38-69): make a fresh
promise/future pair and enqueue the task that will fulfill it; returns
the new future's state id. -/
def rtSpawn (rt : MiniRt α) (v : α) : MiniRt α × Nat :=
  ({ states := rt.states ++ [⟨false, none, []⟩],
     queue := rt.queue ++ [MiniTask.body rt.states.length v] }, rt.states.length)

/-- Future::then (src/async/Future.h, lines 101-141): make the downstream
promise/future, then under the upstream state mutex either enqueue the
continuation globally (upstream already ready) or append it to the
upstream continuation list. -/
def rtThen (rt : MiniRt α) (fid : Nat) (f : α → α) : MiniRt α × Nat :=
  let dn := rt.states.length
  let sts := rt.states ++ [⟨false, none, []⟩]
  match sts[fid]? with
  | none => ({ rt with states := sts }, dn)
  | some st =>
    if st.ready then
      ({ states := sts, queue := rt.queue ++ [MiniTask.cont fid dn f] }, dn)
    else
      ({ states := sts.set fid { st with conts := st.conts ++ [(dn, f)] },
         queue := rt.queue }, dn)

/-- Future::get (src/async/Future.h, lines 72-84) once the worker is
quiescent: the stored value if the state is ready. -/
def rtGet (rt : MiniRt α) (fid : Nat) : Option α :=
  match rt.states[fid]? with
  | none => none
  | some st => if st.ready then st.value else none

def emptyRt : MiniRt α := ⟨[], []⟩

/-- Claim C7: on an initialized runtime, for every pure value v and
side-effect-free f, spawn of a lambda returning v followed by get
returns v, and spawn then then(f) then get returns f v. -/
theorem spawn_get_roundtrip_laws (v : α) (f : α → α) :
    (rtGet (runSteps 4 (rtSpawn (emptyRt (α := α)) v).1)
        (rtSpawn (emptyRt (α := α)) v).2 = some v) ∧
    (rtGet
        (runSteps 4
          (rtThen (rtSpawn (emptyRt (α := α)) v).1 (rtSpawn (emptyRt (α := α)) v).2 f).1)
        (rtThen (rtSpawn (emptyRt (α := α)) v).1 (rtSpawn (emptyRt (α := α)) v).2 f).2 =
      some (f v)) := by
  constructor <;> rfl

/-! ## Soft shutdown drains every enqueued task
(src/src/core/worker.cpp, lines 3-76; src/src/core/default_thread_pool.h,
lines 97-131)

The SOFT_SHUTDOWN protocol of core::Worker::run as a transition system:
each step is one iteration of one worker's loop, taken after
finalize(SOFT_SHUTDOWN) stored the flag (default_thread_pool.h, lines
123-131), with the interleaving of workers and the per-worker steal
victim cursor nondeterministic (a superset of the code's cursor
behavior).  Tasks are opaque tokens: the workload is what the submitter
pushed through DefaultThreadPool::enqueue into the SPSC rings before
finalize.  finalize returns exactly when every worker's loop has broken
out (joined), which is the Exited-everywhere condition below. -/

/-- One worker's queues and protocol flags: the SPSC submission ring
(head = consumer front), the work-stealing deque (head = bottom, the
owner's push/pop side; the tail end is the top that thieves steal from),
whether the worker still counts as active, and whether its loop has
broken out. -/
structure WState where
  spsc : List TaskTok
  wsq : List TaskTok
  active : Bool
  exited : Bool
deriving DecidableEq

/-- The pool: the workers, the shared active-worker counter, and the
tasks invoked so far in invocation order. -/
structure PoolState where
  workers : List WState
  activeCount : Nat
  invoked : List TaskTok
deriving DecidableEq

/-- The SPSC drain loop (worker.cpp, lines 23-29): move tasks from the
SPSC front into the deque until the SPSC is empty or the deque reaches
capacity. -/
def drainLoop (cap : Nat) : List TaskTok → List TaskTok → List TaskTok × List TaskTok
  | [], wsq => ([], wsq)
  | t :: rest, wsq =>
    if wsq.length = cap then (t :: rest, wsq) else drainLoop cap rest (t :: wsq)

/-- Step 1 of the loop iteration (worker.cpp, lines 23-29): drain the
SPSC into the deque, but only when the deque is empty. -/
def phaseDrain (cap : Nat) (w : WState) : WState :=
  if w.wsq.isEmpty then
    { w with spsc := (drainLoop cap w.spsc w.wsq).1,
             wsq := (drainLoop cap w.spsc w.wsq).2 }
  else w

/-- The steal loop (worker.cpp, lines 35-57): read the victim's
approximate deque size n and steal up to n / 2 tasks off the top into
the thief's own deque via enqueue_local. -/
def stealHalf (victim : List TaskTok) : List TaskTok × List TaskTok :=
  (victim.take (victim.length - victim.length / 2),
   victim.drop (victim.length - victim.length / 2))

/-- Worker i steals from victim v.  A no-op exactly when the code would
not steal: single-worker pools disable stealing, and the victim cursor
skips the worker itself. -/
def doSteal (s : PoolState) (i v : Nat) : PoolState :=
  if s.workers.length < 2 then s
  else if i = v then s
  else
    match s.workers[i]?, s.workers[v]? with
    | some wi, some wv =>
      { s with workers :=
          ((s.workers.set v { wv with wsq := (stealHalf wv.wsq).1 }).set i
            { wi with wsq := (stealHalf wv.wsq).2 ++ wi.wsq }) }
    | _, _ => s

/-- The shutdown check at the bottom of the loop (worker.cpp, lines
58-68): under SOFT_SHUTDOWN, with both own queues empty, a still-active
worker decrements the shared counter once; the loop breaks (the worker
exits) exactly when the counter has reached zero. -/
def softCheck (s : PoolState) (i : Nat) : PoolState :=
  match s.workers[i]? with
  | none => s
  | some w =>
    if w.wsq.isEmpty && w.spsc.isEmpty then
      { workers := s.workers.set i
          { w with active := false,
                   exited := (if w.active then s.activeCount - 1 else s.activeCount) == 0 },
        activeCount := if w.active then s.activeCount - 1 else s.activeCount,
        invoked := s.invoked }
    else s

/-- Pop one task from the (already drained) deque and invoke it
(worker.cpp, lines 30-34), or — when the deque came up empty — steal
from the victim (worker.cpp, lines 35-57). -/
def popOrSteal (s : PoolState) (i v : Nat) (w1 : WState) : PoolState :=
  match w1.wsq with
  | t :: rest =>
    { workers := s.workers.set i { w1 with wsq := rest },
      activeCount := s.activeCount,
      invoked := s.invoked ++ [t] }
  | [] => doSteal { s with workers := s.workers.set i w1 } i v

/-- One full iteration of worker i's run loop under SOFT_SHUTDOWN
(worker.cpp, lines 22-69), with v the steal victim the per-worker cursor
would select: drain if the deque is empty, pop and invoke one task or
steal, then run the shutdown check.  Exited workers take no steps. -/
def iterate (cap : Nat) (s : PoolState) (i v : Nat) : PoolState :=
  match s.workers[i]? with
  | none => s
  | some w =>
    if w.exited then s
    else softCheck (popOrSteal s i v (phaseDrain cap w)) i

/-- A scheduler step: some worker performs one loop iteration with some
victim choice. -/
def PoolStep (cap : Nat) (a b : PoolState) : Prop :=
  ∃ i v, i < a.workers.length ∧ b = iterate cap a i v

/-- Any interleaving of worker iterations. -/
def Reaches (cap : Nat) : PoolState → PoolState → Prop :=
  Relation.ReflTransGen (PoolStep cap)

/-- The pool as DefaultThreadPool::init plus a submitted workload leaves
it at the instant finalize(SOFT_SHUTDOWN) stores the flag: each worker
holds its share of the workload in its SPSC ring, every worker is active
(each run() did fetch_add(1); default_thread_pool.h lines 97-117,
worker.cpp line 4), nothing invoked yet. -/
def initPool (workload : List (List TaskTok)) : PoolState :=
  { workers := workload.map fun q => ⟨q, [], true, false⟩,
    activeCount := workload.length,
    invoked := [] }

/-- The tasks a worker currently holds, over both queues. -/
def WState.bag (w : WState) : Multiset TaskTok :=
  (w.spsc : Multiset TaskTok) + (w.wsq : Multiset TaskTok)

/-- All tasks the pool has accepted: the invoked ones plus everything
still queued. -/
def PoolState.load (s : PoolState) : Multiset TaskTok :=
  (s.invoked : Multiset TaskTok) + (s.workers.map WState.bag).sum

/-- Workers whose loop has broken out have both queues empty. -/
def exitedEmpty (s : PoolState) : Prop :=
  ∀ w ∈ s.workers, w.exited = true → w.spsc = [] ∧ w.wsq = []

theorem sum_bag_set (ws : List WState) (i : Nat) (w x : WState)
    (h : ws[i]? = some w) :
    ((ws.set i x).map WState.bag).sum + w.bag = (ws.map WState.bag).sum + x.bag := by
  induction ws generalizing i with
  | nil => simp at h
  | cons a tl ih =>
    cases i with
    | zero =>
      simp at h
      subst h
      simp [List.set]
      abel
    | succ n =>
      simp at h
      simp only [List.set, List.map_cons, List.sum_cons]
      rw [add_assoc, ih n h, ← add_assoc]

theorem sum_bag_set_eq (ws : List WState) (i : Nat) (w x : WState)
    (h : ws[i]? = some w) (hb : x.bag = w.bag) :
    ((ws.set i x).map WState.bag).sum = (ws.map WState.bag).sum := by
  have h2 := sum_bag_set ws i w x h
  rw [hb] at h2
  exact add_right_cancel h2

theorem drainLoop_bag (cap : Nat) (spsc wsq : List TaskTok) :
    ((drainLoop cap spsc wsq).1 : Multiset TaskTok) +
        ((drainLoop cap spsc wsq).2 : Multiset TaskTok) =
      (spsc : Multiset TaskTok) + (wsq : Multiset TaskTok) := by
  induction spsc generalizing wsq with
  | nil => simp [drainLoop]
  | cons t rest ih =>
    by_cases h : wsq.length = cap
    · simp [drainLoop, h]
    · simp only [drainLoop, h, if_false]
      rw [ih (t :: wsq)]
      rw [← Multiset.cons_coe, ← Multiset.cons_coe]
      rw [← Multiset.singleton_add, ← Multiset.singleton_add]
      abel

theorem phaseDrain_bag (cap : Nat) (w : WState) : (phaseDrain cap w).bag = w.bag := by
  unfold phaseDrain WState.bag
  by_cases h : w.wsq.isEmpty
  · simp only [h, if_true]
    exact drainLoop_bag cap w.spsc w.wsq
  · simp [h]

theorem phaseDrain_exited (cap : Nat) (w : WState) :
    (phaseDrain cap w).exited = w.exited := by
  unfold phaseDrain
  by_cases h : w.wsq.isEmpty <;> simp [h]

theorem softCheck_load (s : PoolState) (i : Nat) :
    (softCheck s i).load = s.load := by
  unfold softCheck
  cases h : s.workers[i]? with
  | none => rfl
  | some w =>
    by_cases hc : (w.wsq.isEmpty && w.spsc.isEmpty) = true
    · simp only [hc, if_true, PoolState.load]
      congr 1
      exact sum_bag_set_eq s.workers i w _ h rfl
    · simp [hc]

theorem stealHalf_coe (l : List TaskTok) :
    ((stealHalf l).1 : Multiset TaskTok) + ((stealHalf l).2 : Multiset TaskTok) =
      (l : Multiset TaskTok) := by
  rw [Multiset.coe_add]
  unfold stealHalf
  rw [List.take_append_drop]

theorem doSteal_load (s : PoolState) (i v : Nat) :
    (doSteal s i v).load = s.load := by
  unfold doSteal
  by_cases h1 : s.workers.length < 2
  · simp [h1]
  · simp only [h1, if_false]
    by_cases h2 : i = v
    · simp [h2]
    · simp only [h2, if_false]
      cases hi : s.workers[i]? with
      | none => rfl
      | some wi =>
        cases hv : s.workers[v]? with
        | none => rfl
        | some wv =>
          set keepW : WState := { wv with wsq := (stealHalf wv.wsq).1 } with hkeep
          set stolenW : WState := { wi with wsq := (stealHalf wv.wsq).2 ++ wi.wsq } with hstolen
          simp only [PoolState.load]
          congr 1
          have hne : (s.workers.set v keepW)[i]? = some wi := by
            rw [List.getElem?_set_ne (fun hvi => h2 hvi.symm)]
            exact hi
          have e1 := sum_bag_set (s.workers.set v keepW) i wi stolenW hne
          have e2 := sum_bag_set s.workers v wv keepW hv
          have hbag : stolenW.bag + keepW.bag = wi.bag + wv.bag := by
            rw [hstolen, hkeep]
            unfold WState.bag
            simp only [← Multiset.coe_add]
            rw [← stealHalf_coe wv.wsq]
            abel
          have key : (((s.workers.set v keepW).set i stolenW).map WState.bag).sum +
              (wi.bag + wv.bag) =
              (s.workers.map WState.bag).sum + (wi.bag + wv.bag) := by
            calc (((s.workers.set v keepW).set i stolenW).map WState.bag).sum +
                (wi.bag + wv.bag)
                = ((((s.workers.set v keepW).set i stolenW).map WState.bag).sum +
                    wi.bag) + wv.bag := by rw [add_assoc]
              _ = (((s.workers.set v keepW).map WState.bag).sum + stolenW.bag) +
                    wv.bag := by rw [e1]
              _ = (((s.workers.set v keepW).map WState.bag).sum + wv.bag) +
                    stolenW.bag := by rw [add_right_comm]
              _ = ((s.workers.map WState.bag).sum + keepW.bag) + stolenW.bag := by
                    rw [e2]
              _ = (s.workers.map WState.bag).sum + (stolenW.bag + keepW.bag) := by
                    rw [add_assoc, add_comm keepW.bag]
              _ = (s.workers.map WState.bag).sum + (wi.bag + wv.bag) := by rw [hbag]
          exact add_right_cancel key

theorem popOrSteal_load (s : PoolState) (i v : Nat) (w w1 : WState)
    (hi : s.workers[i]? = some w) (hb : w1.bag = w.bag) :
    (popOrSteal s i v w1).load = s.load := by
  unfold popOrSteal
  cases hq : w1.wsq with
  | nil =>
    rw [doSteal_load]
    simp only [PoolState.load]
    congr 1
    exact sum_bag_set_eq s.workers i w w1 hi hb
  | cons t rest =>
    simp only [PoolState.load]
    have e1 := sum_bag_set s.workers i w { w1 with wsq := rest } hi
    have hw2 : ({ w1 with wsq := rest } : WState).bag + ({t} : Multiset TaskTok) =
        w.bag := by
      rw [← hb]
      unfold WState.bag
      dsimp only
      rw [hq, ← Multiset.cons_coe, ← Multiset.singleton_add]
      abel
    have hstep : ((s.workers.set i { w1 with wsq := rest }).map WState.bag).sum +
        ({t} : Multiset TaskTok) = (s.workers.map WState.bag).sum := by
      apply add_right_cancel (b := ({ w1 with wsq := rest } : WState).bag)
      calc ((s.workers.set i { w1 with wsq := rest }).map WState.bag).sum +
          ({t} : Multiset TaskTok) + ({ w1 with wsq := rest } : WState).bag
          = ((s.workers.set i { w1 with wsq := rest }).map WState.bag).sum +
            (({ w1 with wsq := rest } : WState).bag + ({t} : Multiset TaskTok)) := by
            rw [add_assoc, add_comm ({t} : Multiset TaskTok)]
        _ = ((s.workers.set i { w1 with wsq := rest }).map WState.bag).sum + w.bag := by
            rw [hw2]
        _ = (s.workers.map WState.bag).sum + ({ w1 with wsq := rest } : WState).bag := e1
    rw [← Multiset.coe_add]
    rw [add_assoc]
    congr 1
    rw [add_comm]
    simpa using hstep

theorem iterate_load (cap : Nat) (s : PoolState) (i v : Nat) :
    (iterate cap s i v).load = s.load := by
  cases hi : s.workers[i]? with
  | none => simp [iterate, hi]
  | some w =>
    cases he : w.exited with
    | true => simp [iterate, hi, he]
    | false =>
      have hit : iterate cap s i v = softCheck (popOrSteal s i v (phaseDrain cap w)) i := by
        simp [iterate, hi, he]
      rw [hit, softCheck_load]
      exact popOrSteal_load s i v w (phaseDrain cap w) hi (phaseDrain_bag cap w)

theorem doSteal_exitedEmpty (s : PoolState) (i v : Nat)
    (h : exitedEmpty s)
    (hth : ∀ wi2, s.workers[i]? = some wi2 → wi2.exited = false) :
    exitedEmpty (doSteal s i v) := by
  unfold doSteal
  by_cases h1 : s.workers.length < 2
  · simpa [h1] using h
  · simp only [h1, if_false]
    by_cases h2 : i = v
    · simpa [h2] using h
    · simp only [h2, if_false]
      cases hi : s.workers[i]? with
      | none => exact h
      | some wi =>
        cases hv : s.workers[v]? with
        | none => exact h
        | some wv =>
          intro w2 hw2 hex
          rcases List.mem_or_eq_of_mem_set hw2 with hmem | heq
          · rcases List.mem_or_eq_of_mem_set hmem with hmem2 | heq2
            · exact h w2 hmem2 hex
            · subst heq2
              have hvex : wv.exited = true := hex
              obtain ⟨hs1, hs2⟩ := h wv (List.getElem?_mem hv) hvex
              refine ⟨hs1, ?_⟩
              show (stealHalf wv.wsq).1 = []
              rw [hs2]
              rfl
          · subst heq
            have : wi.exited = false := hth wi hi
            rw [show ({ wi with wsq := (stealHalf wv.wsq).2 ++ wi.wsq } : WState).exited
              = wi.exited from rfl, this] at hex
            cases hex

theorem softCheck_exitedEmpty (s : PoolState) (i : Nat)
    (h : exitedEmpty s) : exitedEmpty (softCheck s i) := by
  cases hi : s.workers[i]? with
  | none =>
    have heq : softCheck s i = s := by simp [softCheck, hi]
    rw [heq]
    exact h
  | some w =>
    by_cases hc : (w.wsq.isEmpty && w.spsc.isEmpty) = true
    · have heq : softCheck s i =
          ⟨s.workers.set i { w with active := false, exited := (if w.active then s.activeCount - 1 else s.activeCount) == 0 },
            if w.active then s.activeCount - 1 else s.activeCount,
            s.invoked⟩ := by
        simp [softCheck, hi, hc]
      rw [heq]
      intro w2 hw2 hex
      rcases List.mem_or_eq_of_mem_set hw2 with hmem | heq2
      · exact h w2 hmem hex
      · subst heq2
        obtain ⟨hb1, hb2⟩ := Bool.and_eq_true_iff.mp hc
        exact ⟨List.isEmpty_iff.mp hb2, List.isEmpty_iff.mp hb1⟩
    · have heq : softCheck s i = s := by simp [softCheck, hi, hc]
      rw [heq]
      exact h

theorem popOrSteal_exitedEmpty (s : PoolState) (i v : Nat) (w1 : WState)
    (h : exitedEmpty s) (hw1 : w1.exited = false) :
    exitedEmpty (popOrSteal s i v w1) := by
  unfold popOrSteal
  cases hq : w1.wsq with
  | cons t rest =>
    intro w2 hw2 hex
    rcases List.mem_or_eq_of_mem_set hw2 with hmem | heq
    · exact h w2 hmem hex
    · subst heq
      rw [show ({ w1 with wsq := rest } : WState).exited = w1.exited from rfl, hw1] at hex
      cases hex
  | nil =>
    apply doSteal_exitedEmpty
    · intro w2 hw2 hex
      rcases List.mem_or_eq_of_mem_set hw2 with hmem | heq
      · exact h w2 hmem hex
      · subst heq
        rw [hw1] at hex
        cases hex
    · intro wi2 hwi2
      by_cases hlen : i < s.workers.length
      · rw [show ({ s with workers := s.workers.set i w1 } : PoolState).workers
            = s.workers.set i w1 from rfl] at hwi2
        rw [List.getElem?_set_self hlen] at hwi2
        cases hwi2
        exact hw1
      · rw [show ({ s with workers := s.workers.set i w1 } : PoolState).workers
            = s.workers.set i w1 from rfl] at hwi2
        rw [List.getElem?_eq_none (by simpa using Nat.le_of_not_lt hlen)] at hwi2
        cases hwi2

theorem iterate_exitedEmpty (cap : Nat) (s : PoolState) (i v : Nat)
    (h : exitedEmpty s) : exitedEmpty (iterate cap s i v) := by
  cases hi : s.workers[i]? with
  | none =>
    have heq : iterate cap s i v = s := by simp [iterate, hi]
    rw [heq]
    exact h
  | some w =>
    cases he : w.exited with
    | true =>
      have heq : iterate cap s i v = s := by simp [iterate, hi, he]
      rw [heq]
      exact h
    | false =>
      have heq : iterate cap s i v = softCheck (popOrSteal s i v (phaseDrain cap w)) i := by
        simp [iterate, hi, he]
      rw [heq]
      apply softCheck_exitedEmpty
      apply popOrSteal_exitedEmpty s i v (phaseDrain cap w) h
      rw [phaseDrain_exited, he]

theorem reaches_load (cap : Nat) {a b : PoolState} (h : Reaches cap a b) :
    b.load = a.load := by
  induction h with
  | refl => rfl
  | tail hab hstep ih =>
    obtain ⟨i, v, -, rfl⟩ := hstep
    rw [iterate_load]
    exact ih

theorem reaches_exitedEmpty (cap : Nat) {a b : PoolState} (h : Reaches cap a b)
    (ha : exitedEmpty a) : exitedEmpty b := by
  induction h with
  | refl => exact ha
  | tail hab hstep ih =>
    obtain ⟨i, v, -, rfl⟩ := hstep
    exact iterate_exitedEmpty _ _ _ _ ih

theorem sum_zero_of_all_zero {l : List (Multiset TaskTok)}
    (h : ∀ x ∈ l, x = 0) : l.sum = 0 := by
  induction l with
  | nil => rfl
  | cons a tl ih =>
    rw [List.sum_cons, h a (by simp), ih fun x hx => h x (by simp [hx])]
    simp

/-- The full workload as one multiset of task tokens. -/
def workloadSum (L : List (List TaskTok)) : Multiset TaskTok :=
  (L.map fun q : List TaskTok => (q : Multiset TaskTok)).sum

theorem card_sum_coe (L : List (List TaskTok)) :
    Multiset.card (workloadSum L) = (L.map List.length).sum := by
  induction L with
  | nil => rfl
  | cons q tl ih =>
    unfold workloadSum at ih ⊢
    rw [List.map_cons, List.sum_cons, Multiset.card_add, Multiset.coe_card,
        List.map_cons, List.sum_cons, ih]

/-- Claim C1: under SOFT_SHUTDOWN, for any pool of at least one worker
and any finite workload distributed into the SPSC rings by
DefaultThreadPool::enqueue, once finalize_soft can return — every
worker's loop has broken out, which is what its joins wait for — the
multiset of invoked tasks is exactly the enqueued workload: no
already-enqueued task is abandoned and the count of enqueued tasks
equals the count of invoked tasks.  This holds for every interleaving of
the workers' loop iterations and every steal pattern. -/
theorem soft_shutdown_drains_all_enqueued (cap : Nat)
    (workload : List (List TaskTok)) (s : PoolState)
    (hN : 1 ≤ workload.length)
    (hreach : Reaches cap (initPool workload) s)
    (hexit : ∀ w ∈ s.workers, w.exited = true) :
    (s.invoked : Multiset TaskTok) = workloadSum workload ∧
    s.invoked.length = (workload.map List.length).sum := by
  have hinit : exitedEmpty (initPool workload) := by
    intro w hw hex
    obtain ⟨q, hq, rfl⟩ := List.mem_map.mp hw
    simp at hex
  have hempty := reaches_exitedEmpty cap hreach hinit
  have hload := reaches_load cap hreach
  have hsum0 : (s.workers.map WState.bag).sum = 0 := by
    apply sum_zero_of_all_zero
    intro x hx
    obtain ⟨w, hw, rfl⟩ := List.mem_map.mp hx
    obtain ⟨h1, h2⟩ := hempty w hw (hexit w hw)
    simp [WState.bag, h1, h2]
  have hinitload : (initPool workload).load = workloadSum workload := by
    unfold initPool PoolState.load workloadSum
    rw [List.map_map]
    have hfun : (WState.bag ∘ fun q => (⟨q, [], true, false⟩ : WState)) =
        fun q : List TaskTok => (q : Multiset TaskTok) := by
      funext q
      simp [WState.bag, Function.comp]
    rw [hfun]
    simp
  have hmain : (s.invoked : Multiset TaskTok) = workloadSum workload := by
    have h2 := hload
    rw [hinitload] at h2
    unfold PoolState.load at h2
    rw [hsum0, add_zero] at h2
    exact h2
  refine ⟨hmain, ?_⟩
  have h3 := congrArg Multiset.card hmain
  rwa [Multiset.coe_card, card_sum_coe] at h3

/-- The pool after the first loop iteration of a one-worker pool with
capacity 1 and workload [0, 1]: task 0 drained and invoked, task 1 still
in the SPSC ring. -/
def c1Mid : PoolState := ⟨[⟨[1], [], true, false⟩], 1, [0]⟩

/-- The same pool after the second iteration: everything invoked, the
worker inactive and exited. -/
def c1Final : PoolState := ⟨[⟨[], [], false, true⟩], 0, [0, 1]⟩

/-- Concrete instance of the soft-shutdown theorem: one worker, capacity
1, workload [0, 1]; after two loop iterations the worker has exited and
both tasks were invoked. -/
theorem soft_shutdown_drains_witness :
    (c1Final.invoked : Multiset TaskTok) = workloadSum [[0, 1]] ∧
    c1Final.invoked.length = (([[0, 1]] : List (List TaskTok)).map List.length).sum := by
  have h1 : PoolStep 1 (initPool [[0, 1]]) c1Mid := ⟨0, 0, by decide, by decide⟩
  have h2 : PoolStep 1 c1Mid c1Final := ⟨0, 0, by decide, by decide⟩
  exact soft_shutdown_drains_all_enqueued 1 [[0, 1]] c1Final (by decide)
    (Relation.ReflTransGen.tail (Relation.ReflTransGen.tail Relation.ReflTransGen.refl h1) h2)
    (by decide)

end MiniRTS

